import Mathlib

/-!
Verification of the tag-based cache invalidation engine of `nuxt-multi-cache`
(`src/runtime/serverHandler/api/purgeTags.ts`).

The file shallowly embeds the source module:

* `CacheItem`, `Backend` model a cache backend (an unstorage-like key/value
  store): key enumeration (`getKeys`), per-key read (`getItem`) and delete
  (`removeItem`).
* `getTagsToPurge`, `onlyUnique`, `DebouncedInvalidator.add`,
  `DebouncedInvalidator.invalidate` and the event handler
  (`handlePurgeTags`) are translated function by function.
* A second, fallible backend model (`FallibleBackend`, `sweepKeysF`, ...)
  embeds the same sweep loop in the `Except` monad: every `await` of a
  backend operation is a bind, so a rejected promise propagates exactly as
  in the source, which contains no `try`/`catch`.

External collaborators that are not part of the repository source
(`readBody`, `checkAuth`, `getMultiCacheContext`, `getModuleConfig`,
the settings module) are modelled as parameters of the handler, except for
the default delay constant which is modelled from the spec (see below).
-/

/-- A value stored in a cache backend.  The sweep only inspects items that
are non-null objects exposing a `cacheTags` field
(`item && typeof item === 'object' && 'cacheTags' in item`); everything
else is modelled by `primitive` (a non-object value) and `obj none`
(an object without a `cacheTags` field). -/
inductive CacheItem where
  | primitive : CacheItem
  | obj : Option (List String) → CacheItem
deriving DecidableEq

/-- The `cacheTags` attribute of an item, when the item is an object that
carries one. -/
def CacheItem.cacheTags : CacheItem → Option (List String)
  | CacheItem.obj (some ts) => some ts
  | _ => none

/-- A cache backend: a finite association list of keys to stored items.
Consumed only through `getKeys` / `getItem` / `removeItem`. -/
structure Backend where
  items : List (String × CacheItem)
deriving DecidableEq

/-- `cache.getKeys()`: enumerate all keys of the backend. -/
def Backend.getKeys (b : Backend) : List String :=
  b.items.map Prod.fst

/-- `cache.getItem(key)`: read the stored item, `none` when absent. -/
def Backend.getItem (b : Backend) (k : String) : Option CacheItem :=
  (b.items.find? (fun p => p.1 == k)).map Prod.snd

/-- `cache.removeItem(key)`: delete the item stored under `key`. -/
def Backend.removeItem (b : Backend) (k : String) : Backend :=
  ⟨b.items.filter (fun p => p.1 != k)⟩

/-- `itemCacheTags.some((v) => tags.includes(v))`: does any tag of the item
appear in the pending tag list? -/
def shouldPurge (tags : List String) (itemCacheTags : List String) : Bool :=
  itemCacheTags.any (fun v => tags.contains v)

/-- The full purge test applied to one stored item: the item is an object
carrying `cacheTags`, and those tags intersect the pending tags. -/
def purgeItem (tags : List String) (item : CacheItem) : Bool :=
  match item.cacheTags with
  | some ts => shouldPurge tags ts
  | none => false

/-- The body of the inner sweep loop for one cache key: read the item and,
when it is an object whose `cacheTags` intersect `tags`, remove it. -/
def sweepStep (tags : List String) (b : Backend) (cacheKey : String) : Backend :=
  match b.getItem cacheKey with
  | some item =>
    match item.cacheTags with
    | some itemCacheTags =>
      if shouldPurge tags itemCacheTags then b.removeItem cacheKey else b
    | none => b
  | none => b

/-- The inner sweep loop: the key list is enumerated once up front
(`await cache.getKeys()`), then each key is processed against the current
state of the backend. -/
def sweepKeys (tags : List String) (keys : List String) (b : Backend) : Backend :=
  keys.foldl (sweepStep tags) b

/-- The sweep of one backend, as performed by `invalidate` for each
enabled cache of the context. -/
def sweepBackend (tags : List String) (b : Backend) : Backend :=
  sweepKeys tags b.getKeys b

/-- The cache context: the named caches of `NuxtMultiCacheSSRContext`
(each possibly undefined, skipped by `if (cache)`), in iteration order. -/
abbrev NuxtMultiCacheSSRContext := List (Option Backend)

/-- The outer sweep loop of `invalidate`: every enabled cache of the
context is swept; deletions in distinct backends are independent. -/
def sweepContext (tags : List String) (ctx : NuxtMultiCacheSSRContext) :
    NuxtMultiCacheSSRContext :=
  ctx.map (fun c => c.map (sweepBackend tags))

/-- `onlyUnique(value, index, self)`: the filter callback keeping only the
first occurrence of each value (`self.indexOf(value) === index`).  In the
source `value` is always an element of `self`, so Lean's `indexOf`
(which returns `self.length` when absent where JS returns `-1`) agrees. -/
def onlyUnique (value : String) (index : Nat) (self : List String) : Bool :=
  self.indexOf value == index

/-- JavaScript's indexed `Array.prototype.filter`, specialised to the
callback arity used by `onlyUnique`: walks the array with its index. -/
def filterWithIndexAux (self : List String)
    (f : String → Nat → List String → Bool) :
    Nat → List String → List String
  | _, [] => []
  | i, x :: xs =>
    if f x i self then x :: filterWithIndexAux self f (i + 1) xs
    else filterWithIndexAux self f (i + 1) xs

/-- `self.filter(f)` for an index-aware callback `f`. -/
def filterWithIndex (self : List String)
    (f : String → Nat → List String → Bool) : List String :=
  filterWithIndexAux self f 0 self

/-- `this.tags.filter(onlyUnique)`: the deduplicated tag list drained at
the start of a sweep. -/
def dedupedTags (l : List String) : List String :=
  filterWithIndex l onlyUnique

/-- The buffer mutation of `add`: each incoming tag is appended to the
buffer unless already present (`if (!this.tags.includes(tag)) push`),
checked against the buffer as it grows. -/
def addToBuffer (buffer : List String) (tags : List String) : List String :=
  tags.foldl (fun acc tag => if acc.contains tag then acc else acc ++ [tag]) buffer

/-- The `DebouncedInvalidator` state: the pending tag buffer, the debounce
delay (undefined until the first request establishes it), the current
timeout (modelled as the scheduled fire time; `none` is `null`), and the
lazily established cache context. -/
structure DebouncedInvalidator where
  tags : List String
  delay : Option Nat
  timeout : Option Nat
  cacheContext : Option NuxtMultiCacheSSRContext
deriving DecidableEq

/-- `new DebouncedInvalidator()`: empty buffer, no timeout, delay and
context not yet established. -/
def DebouncedInvalidator.init : DebouncedInvalidator :=
  ⟨[], none, none, none⟩

/-- `add(tags)`, called at time `now`: merge the tags into the buffer,
and arm a timeout only when none is armed (`if (!this.timeout)`).
`setTimeout(..., this.delay)` with an undefined delay fires after 0 ms,
hence `inv.delay.getD 0`. -/
def DebouncedInvalidator.add (inv : DebouncedInvalidator) (tags : List String)
    (now : Nat) : DebouncedInvalidator :=
  let merged := addToBuffer inv.tags tags
  if inv.timeout.isNone then
    { inv with tags := merged, timeout := some (now + inv.delay.getD 0) }
  else
    { inv with tags := merged }

/-- `invalidate()`: return silently when the context is not established
(leaving `timeout` untouched); otherwise drain and deduplicate the buffer,
reset the timeout, and sweep every enabled cache of the context. -/
def DebouncedInvalidator.invalidate (inv : DebouncedInvalidator) :
    DebouncedInvalidator :=
  match inv.cacheContext with
  | none => inv
  | some ctx =>
    let tags := dedupedTags inv.tags
    { inv with
      tags := []
      timeout := none
      cacheContext := some (sweepContext tags ctx) }

/-- The request body, as far as `getTagsToPurge` distinguishes it: a
null/absent payload, a single (string) tag, or an array of tags.  Note
that a JavaScript array is truthy even when empty, and a string payload is
never an array. -/
inductive Body where
  | null : Body
  | str : String → Body
  | arr : List String → Body
deriving DecidableEq

/-- The error thrown by `createError`. -/
structure ClientError where
  statusCode : Nat
  statusMessage : String
deriving DecidableEq

/-- `getTagsToPurge(event)`: return the body when it is a (possibly empty)
array, otherwise throw a 400 error. -/
def getTagsToPurge : Body → Except ClientError (List String)
  | Body.arr tags => Except.ok tags
  | _ => Except.error ⟨400, "No valid tags provided."⟩

/-- Modelled from the spec: the module exposes "a single numeric setting,
cache tag invalidation delay (milliseconds), with a documented default used
when unset"; the constant `DEFAULT_CACHE_TAG_INVALIDATION_DELAY` lives in
the settings module, which is not part of this source tree.  Its concrete
value is irrelevant to every theorem below. -/
def DEFAULT_CACHE_TAG_INVALIDATION_DELAY : Nat := 60000

/-- `moduleConfig.api?.cacheTagInvalidationDelay || DEFAULT...`: a missing
or zero (falsy) configured delay falls back to the default. -/
def resolveDelay (cfg : Option Nat) : Nat :=
  match cfg with
  | some d => if d = 0 then DEFAULT_CACHE_TAG_INVALIDATION_DELAY else d
  | none => DEFAULT_CACHE_TAG_INVALIDATION_DELAY

/-- The handler's success response: `{ status: 'OK', tags }`. -/
structure PurgeResponse where
  status : String
  tags : List String
deriving DecidableEq

/-- The event handler: parse the tags (a thrown parse error leaves the
module-level invalidator untouched), lazily establish the cache context
and delay on first use, buffer the tags, and acknowledge.  `eventCtx` is
the result of `getMultiCacheContext(event)` and `cfg` the configured
delay; `checkAuth` is an external precondition outside the embedded
module. -/
def handlePurgeTags (inv : DebouncedInvalidator) (body : Body)
    (eventCtx : Option NuxtMultiCacheSSRContext) (cfg : Option Nat)
    (now : Nat) : DebouncedInvalidator × Except ClientError PurgeResponse :=
  match getTagsToPurge body with
  | Except.error e => (inv, Except.error e)
  | Except.ok tags =>
    let inv1 :=
      if inv.cacheContext.isNone then
        { inv with cacheContext := eventCtx, delay := some (resolveDelay cfg) }
      else inv
    (inv1.add tags now, Except.ok ⟨"OK", tags⟩)

example :
    sweepBackend ["t1"]
      ⟨[("k1", CacheItem.obj (some ["t1", "t2"])),
        ("k2", CacheItem.obj (some ["t3"]))]⟩ =
    ⟨[("k2", CacheItem.obj (some ["t3"]))]⟩ := by decide

example : dedupedTags ["a", "b", "a", "c", "b"] = ["a", "b", "c"] := by decide

example : addToBuffer ["a"] ["b", "a", "b"] = ["a", "b"] := by decide

/-! ### Lemmas about the tag buffer -/

theorem addToBuffer_nil (buffer : List String) : addToBuffer buffer [] = buffer := rfl

theorem addToBuffer_cons (buffer : List String) (t : String) (ts : List String) :
    addToBuffer buffer (t :: ts) =
      addToBuffer (if buffer.contains t then buffer else buffer ++ [t]) ts := rfl

theorem mem_addToBuffer (a : String) :
    ∀ (tags buffer : List String),
      a ∈ addToBuffer buffer tags ↔ a ∈ buffer ∨ a ∈ tags := by
  intro tags
  induction tags with
  | nil => intro buffer; simp [addToBuffer]
  | cons t ts ih =>
    intro buffer
    rw [addToBuffer_cons]
    by_cases h : buffer.contains t
    · rw [if_pos h, ih]
      have ht : t ∈ buffer := List.elem_iff.mp h
      have ht' : a = t → a ∈ buffer := fun e => e ▸ ht
      simp only [List.mem_cons]
      tauto
    · rw [if_neg h, ih]
      simp only [List.mem_append, List.mem_singleton, List.mem_cons]
      tauto

theorem addToBuffer_nodup :
    ∀ (tags buffer : List String), buffer.Nodup → (addToBuffer buffer tags).Nodup := by
  intro tags
  induction tags with
  | nil => intro buffer h; exact h
  | cons t ts ih =>
    intro buffer h
    rw [addToBuffer_cons]
    by_cases hc : buffer.contains t
    · rw [if_pos hc]; exact ih buffer h
    · rw [if_neg hc]
      refine ih (buffer ++ [t]) ?_
      have hmem : t ∉ buffer := fun hm => hc (List.elem_iff.mpr hm)
      rw [List.nodup_append]
      exact ⟨h, List.nodup_singleton t, List.disjoint_singleton.mpr hmem⟩

/-! ### `tags.filter(onlyUnique)` on a duplicate-free buffer -/

theorem filterWithIndexAux_onlyUnique (self : List String) (hs : self.Nodup) :
    ∀ (suf pre : List String), self = pre ++ suf →
      filterWithIndexAux self onlyUnique pre.length suf = suf := by
  intro suf
  induction suf with
  | nil => intro pre _; rfl
  | cons x xs ih =>
    intro pre h
    have hs' : (pre ++ x :: xs).Nodup := h ▸ hs
    have hx : x ∉ pre := fun hmem =>
      (List.nodup_append.mp hs').2.2 hmem (List.mem_cons_self x xs)
    have hidx : List.indexOf x self = pre.length := by
      rw [h, List.indexOf_append_of_not_mem hx, List.indexOf_cons_self, Nat.add_zero]
    have hcond : onlyUnique x pre.length self = true := by
      simp [onlyUnique, hidx]
    unfold filterWithIndexAux
    rw [if_pos hcond]
    have hlen : (pre ++ [x]).length = pre.length + 1 := by
      rw [List.length_append, List.length_singleton]
    have happ : self = (pre ++ [x]) ++ xs := by
      rw [h, List.append_assoc, List.singleton_append]
    rw [← hlen, ih (pre ++ [x]) happ]

theorem dedupedTags_of_nodup {l : List String} (h : l.Nodup) : dedupedTags l = l :=
  filterWithIndexAux_onlyUnique l h l [] rfl

/-! ### State lemmas for `add` and `invalidate` -/

theorem add_tags_eq (inv : DebouncedInvalidator) (tags : List String) (now : Nat) :
    (inv.add tags now).tags = addToBuffer inv.tags tags := by
  unfold DebouncedInvalidator.add
  by_cases h : inv.timeout.isNone <;> simp [h]

theorem add_timeout_of_some (inv : DebouncedInvalidator) (tags : List String)
    (now : Nat) (h : inv.timeout ≠ none) : (inv.add tags now).timeout = inv.timeout := by
  unfold DebouncedInvalidator.add
  have : inv.timeout.isNone = false := by
    cases ht : inv.timeout with
    | none => exact absurd ht h
    | some x => rfl
  simp [this]

theorem add_timeout_of_none (inv : DebouncedInvalidator) (tags : List String)
    (now : Nat) (h : inv.timeout = none) :
    (inv.add tags now).timeout = some (now + inv.delay.getD 0) := by
  unfold DebouncedInvalidator.add
  simp [h]

theorem invalidate_of_context_none (inv : DebouncedInvalidator)
    (h : inv.cacheContext = none) : inv.invalidate = inv := by
  unfold DebouncedInvalidator.invalidate
  rw [h]

theorem invalidate_of_context_some (inv : DebouncedInvalidator)
    (ctx : NuxtMultiCacheSSRContext) (h : inv.cacheContext = some ctx) :
    inv.invalidate =
      { inv with
        tags := []
        timeout := none
        cacheContext := some (sweepContext (dedupedTags inv.tags) ctx) } := by
  unfold DebouncedInvalidator.invalidate
  rw [h]

/-- A burst of requests: each call carries its tag list and arrival time. -/
def applyCalls (inv : DebouncedInvalidator) (calls : List (List String × Nat)) :
    DebouncedInvalidator :=
  calls.foldl (fun s p => s.add p.1 p.2) inv

theorem applyCalls_timeout_of_some (x : Nat) :
    ∀ (calls : List (List String × Nat)) (inv : DebouncedInvalidator),
      inv.timeout = some x → (applyCalls inv calls).timeout = some x := by
  intro calls
  induction calls with
  | nil => intro inv h; exact h
  | cons c cs ih =>
    intro inv h
    have hstep : (inv.add c.1 c.2).timeout = some x := by
      rw [add_timeout_of_some inv c.1 c.2 (by rw [h]; exact fun e => Option.noConfusion e)]
      exact h
    exact ih (inv.add c.1 c.2) hstep

theorem applyCalls_tags_eq :
    ∀ (calls : List (List String × Nat)) (inv : DebouncedInvalidator),
      (applyCalls inv calls).tags =
        calls.foldl (fun b c => addToBuffer b c.1) inv.tags := by
  intro calls
  induction calls with
  | nil => intro inv; rfl
  | cons c cs ih =>
    intro inv
    show (applyCalls (inv.add c.1 c.2) cs).tags = _
    rw [ih (inv.add c.1 c.2), add_tags_eq]
    rfl

theorem mem_foldl_addToBuffer (a : String) :
    ∀ (calls : List (List String × Nat)) (buf : List String),
      a ∈ calls.foldl (fun b c => addToBuffer b c.1) buf ↔
        a ∈ buf ∨ ∃ c ∈ calls, a ∈ c.1 := by
  intro calls
  induction calls with
  | nil => intro buf; simp
  | cons c cs ih =>
    intro buf
    show a ∈ cs.foldl _ (addToBuffer buf c.1) ↔ _
    rw [ih, mem_addToBuffer]
    constructor
    · rintro ((hb | hc) | ⟨d, hd, ha⟩)
      · exact Or.inl hb
      · exact Or.inr ⟨c, List.mem_cons_self c cs, hc⟩
      · exact Or.inr ⟨d, List.mem_cons_of_mem c hd, ha⟩
    · rintro (hb | ⟨d, hd, ha⟩)
      · exact Or.inl (Or.inl hb)
      · rcases List.mem_cons.mp hd with rfl | hd'
        · exact Or.inl (Or.inr ha)
        · exact Or.inr ⟨d, hd', ha⟩

theorem nodup_foldl_addToBuffer :
    ∀ (calls : List (List String × Nat)) (buf : List String), buf.Nodup →
      (calls.foldl (fun b c => addToBuffer b c.1) buf).Nodup := by
  intro calls
  induction calls with
  | nil => intro buf h; exact h
  | cons c cs ih =>
    intro buf h
    exact ih (addToBuffer buf c.1) (addToBuffer_nodup c.1 buf h)

/-! ### Characterisation of the sweep -/

theorem getItem_eq_none_iff (b : Backend) (k : String) :
    b.getItem k = none ↔ ∀ p ∈ b.items, ¬p.1 = k := by
  unfold Backend.getItem
  rw [Option.map_eq_none', List.find?_eq_none]
  constructor
  · intro h p hp
    intro e
    exact h p hp (by simp [e])
  · intro h p hp hbeq
    exact h p hp (by simpa using hbeq)

theorem find?_key_of_mem_nodup :
    ∀ (l : List (String × CacheItem)), (l.map Prod.fst).Nodup →
      ∀ p ∈ l, l.find? (fun q => q.1 == p.1) = some p := by
  intro l
  induction l with
  | nil => intro _ p hp; cases hp
  | cons q rest ih =>
    intro hnd p hp
    rw [List.map_cons, List.nodup_cons] at hnd
    rcases List.mem_cons.mp hp with rfl | hmem
    · exact List.find?_cons_of_pos rest (by simp)
    · have hne : ¬(q.1 == p.1) = true := by
        intro hbeq
        apply hnd.1
        rw [beq_iff_eq.mp hbeq]
        exact List.mem_map.mpr ⟨p, hmem, rfl⟩
      rw [List.find?_cons_of_neg rest hne]
      exact ih hnd.2 p hmem

theorem getItem_of_mem_nodup {b : Backend} (hk : (b.items.map Prod.fst).Nodup)
    {p : String × CacheItem} (hp : p ∈ b.items) : b.getItem p.1 = some p.2 := by
  unfold Backend.getItem
  rw [find?_key_of_mem_nodup b.items hk p hp]
  rfl

theorem removeItem_keys_nodup {b : Backend} (hk : (b.items.map Prod.fst).Nodup)
    (k : String) : ((b.removeItem k).items.map Prod.fst).Nodup :=
  List.Nodup.sublist (List.Sublist.map Prod.fst (List.filter_sublist b.items)) hk

theorem sweepStep_of_getItem_none (tags : List String) (b : Backend) (k : String)
    (h : b.getItem k = none) : sweepStep tags b k = b := by
  unfold sweepStep
  rw [h]

theorem sweepStep_of_not_purge (tags : List String) (b : Backend) (k : String)
    (item : CacheItem) (h : b.getItem k = some item)
    (hpi : purgeItem tags item = false) : sweepStep tags b k = b := by
  unfold sweepStep
  rw [h]
  show (match item.cacheTags with
    | some itemCacheTags =>
      if shouldPurge tags itemCacheTags then b.removeItem k else b
    | none => b) = b
  unfold purgeItem at hpi
  cases hct : item.cacheTags with
  | none => rfl
  | some ts =>
    rw [hct] at hpi
    have hsp : shouldPurge tags ts = false := hpi
    show (if shouldPurge tags ts then b.removeItem k else b) = b
    rw [hsp]
    rfl

theorem sweepStep_of_purge (tags : List String) (b : Backend) (k : String)
    (item : CacheItem) (h : b.getItem k = some item)
    (hpi : purgeItem tags item = true) : sweepStep tags b k = b.removeItem k := by
  unfold sweepStep
  rw [h]
  show (match item.cacheTags with
    | some itemCacheTags =>
      if shouldPurge tags itemCacheTags then b.removeItem k else b
    | none => b) = b.removeItem k
  unfold purgeItem at hpi
  cases hct : item.cacheTags with
  | none =>
    rw [hct] at hpi
    exact Bool.noConfusion (show false = true from hpi)
  | some ts =>
    rw [hct] at hpi
    have hsp : shouldPurge tags ts = true := hpi
    show (if shouldPurge tags ts then b.removeItem k else b) = b.removeItem k
    rw [hsp]
    rfl

theorem sweepKeys_eq_filter (tags : List String) :
    ∀ (ks : List String) (b : Backend), (b.items.map Prod.fst).Nodup →
      sweepKeys tags ks b =
        ⟨b.items.filter (fun p => !(ks.contains p.1 && purgeItem tags p.2))⟩ := by
  intro ks
  induction ks with
  | nil =>
    intro b _
    have hfi : b.items.filter (fun p => !(([] : List String).contains p.1 && purgeItem tags p.2))
        = b.items :=
      (List.filter_congr (fun p _ => rfl)).trans (List.filter_true b.items)
    show b = _
    rw [hfi]
  | cons k ks ih =>
    intro b hnd
    show sweepKeys tags ks (sweepStep tags b k) = _
    cases hit : b.getItem k with
    | none =>
      rw [sweepStep_of_getItem_none tags b k hit, ih b hnd]
      congr 1
      apply List.filter_congr
      intro p hp
      have hne : ¬p.1 = k := (getItem_eq_none_iff b k).mp hit p hp
      simp [List.contains_cons, hne]
    | some item =>
      cases hpi : purgeItem tags item with
      | false =>
        rw [sweepStep_of_not_purge tags b k item hit hpi, ih b hnd]
        congr 1
        apply List.filter_congr
        intro p hp
        by_cases hpk : p.1 = k
        · have hsome : b.getItem p.1 = some p.2 := getItem_of_mem_nodup hnd hp
          rw [hpk, hit] at hsome
          have h2 : p.2 = item := (Option.some.injEq _ _).mp hsome.symm
          simp [List.contains_cons, h2, hpi]
        · simp [List.contains_cons, hpk]
      | true =>
        rw [sweepStep_of_purge tags b k item hit hpi,
          ih (b.removeItem k) (removeItem_keys_nodup hnd k)]
        congr 1
        show (b.items.filter _).filter _ = _
        rw [List.filter_filter]
        apply List.filter_congr
        intro p hp
        by_cases hpk : p.1 = k
        · have hsome : b.getItem p.1 = some p.2 := getItem_of_mem_nodup hnd hp
          rw [hpk, hit] at hsome
          have h2 : p.2 = item := (Option.some.injEq _ _).mp hsome.symm
          simp [List.contains_cons, h2, hpi, hpk]
        · simp [List.contains_cons, hpk]

theorem sweepBackend_eq_filter (tags : List String) (b : Backend)
    (hk : (b.items.map Prod.fst).Nodup) :
    sweepBackend tags b = ⟨b.items.filter (fun p => !purgeItem tags p.2)⟩ := by
  show sweepKeys tags b.getKeys b = _
  rw [sweepKeys_eq_filter tags b.getKeys b hk]
  congr 1
  apply List.filter_congr
  intro p hp
  have hmem : b.getKeys.contains p.1 = true :=
    List.elem_iff.mpr (List.mem_map.mpr ⟨p, hp, rfl⟩)
  rw [hmem]
  simp

theorem getItem_filter_purge (tags : List String) :
    ∀ (l : List (String × CacheItem)), (l.map Prod.fst).Nodup → ∀ k,
      Backend.getItem ⟨l.filter (fun p => !purgeItem tags p.2)⟩ k =
        if Option.any (purgeItem tags) (Backend.getItem ⟨l⟩ k) then none
        else Backend.getItem ⟨l⟩ k := by
  intro l
  induction l with
  | nil => intro _ k; rfl
  | cons q rest ih =>
    intro hnd k
    rw [List.map_cons, List.nodup_cons] at hnd
    by_cases hqk : q.1 = k
    · have horig : Backend.getItem ⟨q :: rest⟩ k = some q.2 := by
        unfold Backend.getItem
        rw [List.find?_cons_of_pos rest (by simp [hqk])]
        rfl
      rw [horig]
      cases hpq : purgeItem tags q.2 with
      | false =>
        have : (q :: rest).filter (fun p => !purgeItem tags p.2)
            = q :: rest.filter (fun p => !purgeItem tags p.2) := by
          rw [List.filter_cons_of_pos (by simp [hpq])]
        rw [this]
        unfold Backend.getItem
        rw [List.find?_cons_of_pos _ (by simp [hqk])]
        simp [hpq]
      | true =>
        have hfc : (q :: rest).filter (fun p => !purgeItem tags p.2)
            = rest.filter (fun p => !purgeItem tags p.2) := by
          rw [List.filter_cons_of_neg (by simp [hpq])]
        rw [hfc]
        have hnone : Backend.getItem ⟨rest.filter (fun p => !purgeItem tags p.2)⟩ k = none := by
          rw [getItem_eq_none_iff]
          intro p hp e
          have hpr : p ∈ rest := List.mem_of_mem_filter hp
          apply hnd.1
          rw [hqk, ← e]
          exact List.mem_map.mpr ⟨p, hpr, rfl⟩
        rw [hnone]
        simp [hpq]
    · have horig : Backend.getItem ⟨q :: rest⟩ k = Backend.getItem ⟨rest⟩ k := by
        unfold Backend.getItem
        rw [List.find?_cons_of_neg rest (by simp [hqk])]
      rw [horig]
      cases hpq : purgeItem tags q.2 with
      | false =>
        have : (q :: rest).filter (fun p => !purgeItem tags p.2)
            = q :: rest.filter (fun p => !purgeItem tags p.2) := by
          rw [List.filter_cons_of_pos (by simp [hpq])]
        rw [this]
        have hskip : Backend.getItem ⟨q :: rest.filter (fun p => !purgeItem tags p.2)⟩ k
            = Backend.getItem ⟨rest.filter (fun p => !purgeItem tags p.2)⟩ k := by
          unfold Backend.getItem
          rw [List.find?_cons_of_neg _ (by simp [hqk])]
        rw [hskip]
        exact ih hnd.2 k
      | true =>
        have hfc : (q :: rest).filter (fun p => !purgeItem tags p.2)
            = rest.filter (fun p => !purgeItem tags p.2) := by
          rw [List.filter_cons_of_neg (by simp [hpq])]
        rw [hfc]
        exact ih hnd.2 k

/-! ### Fallible backend model

The sweep awaits each backend operation with no `try`/`catch`; in the
`Except` embedding each `await` is a bind, so a rejected read or delete
propagates out of `invalidate`. -/

/-- A backend whose reads and deletes may fail (a rejected promise),
recording which keys fail on `getItem` and which on `removeItem`. -/
structure FallibleBackend where
  items : List (String × CacheItem)
  failingReads : List String
  failingRemoves : List String
deriving DecidableEq

/-- `await cache.getItem(cacheKey)` on a fallible backend. -/
def FallibleBackend.getItemF (b : FallibleBackend) (k : String) :
    Except Unit (Option CacheItem) :=
  if b.failingReads.contains k then Except.error ()
  else Except.ok ((b.items.find? (fun p => p.1 == k)).map Prod.snd)

/-- `await cache.removeItem(cacheKey)` on a fallible backend. -/
def FallibleBackend.removeItemF (b : FallibleBackend) (k : String) :
    Except Unit FallibleBackend :=
  if b.failingRemoves.contains k then Except.error ()
  else Except.ok ⟨b.items.filter (fun p => p.1 != k), b.failingReads, b.failingRemoves⟩

/-- One iteration of the inner sweep loop on a fallible backend: read the
item and, when it is an object whose `cacheTags` intersect `tags`, remove
it; a failure of either awaited operation is an error. -/
def sweepKeyStepF (tags : List String) (b : FallibleBackend) (k : String) :
    Except Unit FallibleBackend :=
  match b.getItemF k with
  | Except.error e => Except.error e
  | Except.ok none => Except.ok b
  | Except.ok (some item) =>
    match item.cacheTags with
    | some itemCacheTags =>
      if shouldPurge tags itemCacheTags then b.removeItemF k else Except.ok b
    | none => Except.ok b

/-- The inner sweep loop on a fallible backend: keys are processed in
order and, the loop body being awaited, the first failure aborts the
remaining iterations. -/
def sweepKeysF (tags : List String) :
    List String → FallibleBackend → Except Unit FallibleBackend
  | [], b => Except.ok b
  | k :: ks, b =>
    match sweepKeyStepF tags b k with
    | Except.error e => Except.error e
    | Except.ok b2 => sweepKeysF tags ks b2

/-- The sweep of one fallible backend over its enumerated keys. -/
def sweepBackendF (tags : List String) (b : FallibleBackend) :
    Except Unit FallibleBackend :=
  sweepKeysF tags (b.items.map Prod.fst) b

/-- The outer sweep loop over the context's caches on fallible backends:
backends are swept in order and a failure inside one backend aborts the
remaining backends of the same sweep. -/
def sweepContextF (tags : List String) :
    List (Option FallibleBackend) → Except Unit (List (Option FallibleBackend))
  | [] => Except.ok []
  | none :: rest => Except.map (fun r => none :: r) (sweepContextF tags rest)
  | some b :: rest =>
    match sweepBackendF tags b with
    | Except.error e => Except.error e
    | Except.ok b2 => Except.map (fun r => some b2 :: r) (sweepContextF tags rest)

/-! ### Claim theorems -/

/-- C1: in a sweep executed with an established cache context, every
enabled backend is swept with the drained deduplicated tag list, and for
every key of a (duplicate-free) backend the stored item is deleted exactly
when reading it returns an existing item whose `cacheTags` intersect the
drained pending tags; items lacking `cacheTags` or with no intersecting
tag are left in place. -/
theorem sweep_purges_exactly_matching (inv : DebouncedInvalidator)
    (ctx : NuxtMultiCacheSSRContext) (h : inv.cacheContext = some ctx)
    (b : Backend) (hk : (b.items.map Prod.fst).Nodup) (k : String) :
    inv.invalidate.cacheContext = some (sweepContext (dedupedTags inv.tags) ctx) ∧
    (sweepBackend (dedupedTags inv.tags) b).getItem k =
      (if Option.any (purgeItem (dedupedTags inv.tags)) (b.getItem k) then none
       else b.getItem k) := by
  constructor
  · rw [invalidate_of_context_some inv ctx h]
  · rw [sweepBackend_eq_filter (dedupedTags inv.tags) b hk]
    exact getItem_filter_purge (dedupedTags inv.tags) b.items hk k

/-- C1 witness: the spec's scenario, `k1` tagged `[t1, t2]` is deleted by
a sweep for `t1`. -/
theorem sweep_purges_exactly_matching_witness :
    (sweepBackend (dedupedTags ["t1"])
      ⟨[("k1", CacheItem.obj (some ["t1", "t2"])),
        ("k2", CacheItem.obj (some ["t3"]))]⟩).getItem "k1" = none := by
  have h := (sweep_purges_exactly_matching ⟨["t1"], some 2000, none, some []⟩ [] rfl
    ⟨[("k1", CacheItem.obj (some ["t1", "t2"])),
      ("k2", CacheItem.obj (some ["t3"]))]⟩ (by decide) "k1").2
  rw [h]
  decide

/-- C2: from a state with no armed timeout, the first `add` arms the
single timeout for `delay` milliseconds from its own arrival time; any
burst of later `add` calls leaves that same scheduled fire time in place,
and in general an `add` against an armed timeout only merges its tags into
the buffer without touching the timeout. -/
theorem debounce_single_timer (inv : DebouncedInvalidator) (d : Nat)
    (c0 : List String) (t0 : Nat) (calls : List (List String × Nat))
    (h : inv.timeout = none) (hd : inv.delay = some d) :
    (inv.add c0 t0).timeout = some (t0 + d) ∧
    (applyCalls (inv.add c0 t0) calls).timeout = some (t0 + d) ∧
    (∀ (s : DebouncedInvalidator) (c : List String) (n : Nat),
      s.timeout ≠ none →
        (s.add c n).timeout = s.timeout ∧ (s.add c n).tags = addToBuffer s.tags c) := by
  have h1 : (inv.add c0 t0).timeout = some (t0 + d) := by
    rw [add_timeout_of_none inv c0 t0 h, hd]
    rfl
  refine ⟨h1, applyCalls_timeout_of_some (t0 + d) calls _ h1, ?_⟩
  intro s c n hs
  exact ⟨add_timeout_of_some s c n hs, add_tags_eq s c n⟩

/-- C2 witness: two `add` calls 10 ms apart with a 2000 ms delay leave a
single timeout scheduled 2000 ms after the first call. -/
theorem debounce_single_timer_witness :
    (applyCalls ((DebouncedInvalidator.mk [] (some 2000) none none).add ["t1"] 0)
      [(["t1", "t2"], 10)]).timeout = some (0 + 2000) :=
  (debounce_single_timer ⟨[], some 2000, none, none⟩ 2000 ["t1"] 0
    [(["t1", "t2"], 10)] rfl rfl).2.1

/-- C3 counterexample: with a failing read on `k1`, the sweep does not
skip `k1` and continue: it aborts with the error, so `k2` of the same
backend and the entire second backend are never processed, contradicting
the claim that remaining keys and backends are still processed and that
the sweep never propagates. -/
theorem sweep_failure_aborts_cex :
    sweepBackendF ["t1"]
      ⟨[("k1", CacheItem.obj (some ["t1"])), ("k2", CacheItem.obj (some ["t1"]))],
        ["k1"], []⟩ = Except.error () ∧
    sweepContextF ["t1"]
      [some ⟨[("k1", CacheItem.obj (some ["t1"])), ("k2", CacheItem.obj (some ["t1"]))],
          ["k1"], []⟩,
        some ⟨[("k3", CacheItem.obj (some ["t1"]))], [], []⟩] = Except.error () :=
  ⟨rfl, rfl⟩

/-- C3 amended: a read or delete failure for one key aborts the sweep of
the remaining keys: once a prefix of the key list fails, the whole key
loop fails with the same error, which propagates out of the sweep. -/
theorem sweep_failure_propagates (tags : List String) (ks2 : List String) :
    ∀ (ks : List String) (b : FallibleBackend),
      sweepKeysF tags ks b = Except.error () →
      sweepKeysF tags (ks ++ ks2) b = Except.error () := by
  intro ks
  induction ks with
  | nil =>
    intro b h
    exact absurd h (by simp [sweepKeysF])
  | cons k ks ih =>
    intro b h
    have hgoal : sweepKeysF tags (k :: ks ++ ks2) b
        = (match sweepKeyStepF tags b k with
           | Except.error e => Except.error e
           | Except.ok b2 => sweepKeysF tags (ks ++ ks2) b2) := rfl
    have hh : (match sweepKeyStepF tags b k with
           | Except.error e => Except.error e
           | Except.ok b2 => sweepKeysF tags ks b2) = Except.error () := h
    rw [hgoal]
    cases hs : sweepKeyStepF tags b k with
    | error e => rfl
    | ok b2 =>
      rw [hs] at hh
      exact ih b2 hh

/-- C3 amended witness: the failing backend of the counterexample. -/
theorem sweep_failure_propagates_witness :
    sweepKeysF ["t1"] (["k1"] ++ ["k2"])
      ⟨[("k1", CacheItem.obj (some ["t1"])), ("k2", CacheItem.obj (some ["t1"]))],
        ["k1"], []⟩ = Except.error () :=
  sweep_failure_propagates ["t1"] ["k2"] ["k1"]
    ⟨[("k1", CacheItem.obj (some ["t1"])), ("k2", CacheItem.obj (some ["t1"]))],
      ["k1"], []⟩ rfl

/-- C4 counterexample: `PurgeTags([])` is not rejected — an empty array is
truthy and passes `Array.isArray`, so the handler acknowledges it — and
`add([])` with no armed timeout is not free of timer side effects: it arms
the debounce timeout. -/
theorem empty_purge_accepted_cex :
    (handlePurgeTags ⟨[], none, none, none⟩ (Body.arr []) (some [some ⟨[]⟩])
      (some 2000) 0).2 = Except.ok ⟨"OK", []⟩ ∧
    ((⟨[], some 2000, none, none⟩ : DebouncedInvalidator).add [] 0).timeout
      = some (0 + 2000) :=
  ⟨rfl, rfl⟩

/-- C4 amended: a request whose payload is not an array (null or a single
string) is rejected with the 400 error and leaves the invalidator
unchanged; an empty tag array, however, is accepted with an `OK`
confirmation, and `add` with an empty sequence adds no tags but still arms
the debounce timeout when none is armed. -/
theorem purge_nonarray_rejected_empty_accepted (inv : DebouncedInvalidator)
    (body : Body) (eventCtx : Option NuxtMultiCacheSSRContext) (cfg : Option Nat)
    (now : Nat) (h : ∀ ts, body ≠ Body.arr ts) :
    handlePurgeTags inv body eventCtx cfg now
        = (inv, Except.error ⟨400, "No valid tags provided."⟩) ∧
    (handlePurgeTags inv (Body.arr []) eventCtx cfg now).2 = Except.ok ⟨"OK", []⟩ ∧
    (inv.add [] now).tags = inv.tags ∧
    (inv.timeout = none → (inv.add [] now).timeout = some (now + inv.delay.getD 0)) := by
  refine ⟨?_, rfl, ?_, ?_⟩
  · cases body with
    | null => rfl
    | str s => rfl
    | arr ts => exact absurd rfl (h ts)
  · rw [add_tags_eq]
    exact addToBuffer_nil inv.tags
  · intro ht
    exact add_timeout_of_none inv [] now ht

/-- C4 amended witness: a null payload is rejected with no state change. -/
theorem purge_nonarray_rejected_empty_accepted_witness :
    handlePurgeTags ⟨[], none, none, none⟩ Body.null none none 0
        = (⟨[], none, none, none⟩, Except.error ⟨400, "No valid tags provided."⟩) :=
  (purge_nonarray_rejected_empty_accepted ⟨[], none, none, none⟩ Body.null
    none none 0 (fun _ e => Body.noConfusion e)).1

/-- C5: the handler rejects a single (non-array) tag payload with the 400
client error, although the doc comment of `getTagsToPurge` documents that
"a single tag can be provided via URL param"; no URL parameter is ever
read, so the documented single-tag form is never accepted. -/
theorem single_tag_rejected :
    handlePurgeTags ⟨[], none, none, none⟩ (Body.str "t1") none none 0
        = (⟨[], none, none, none⟩, Except.error ⟨400, "No valid tags provided."⟩) ∧
    getTagsToPurge (Body.str "t1") = Except.error ⟨400, "No valid tags provided."⟩ ∧
    (handlePurgeTags ⟨[], none, none, none⟩ (Body.arr ["t1", "t2"]) none none 0).2
        = Except.ok ⟨"OK", ["t1", "t2"]⟩ :=
  ⟨rfl, rfl, rfl⟩

/-- C6 counterexample: a timer expiry (an `invalidate` run) with the
cache context still unset clears neither the pending tag set nor the
timeout, so the claim's "for every timer expiry ... clears both" fails. -/
theorem expiry_without_context_clears_nothing_cex :
    (DebouncedInvalidator.invalidate ⟨["t1"], some 2000, some 7, none⟩).tags = ["t1"] ∧
    (DebouncedInvalidator.invalidate ⟨["t1"], some 2000, some 7, none⟩).timeout = some 7 :=
  ⟨rfl, rfl⟩

/-- C6 amended: for every timer expiry with an established cache context,
`invalidate` runs the sweep over the context with the drained tags and
clears both the pending tag set and the timeout, so the next `add` starts
a fresh debounce window. -/
theorem expiry_with_context_clears_window (inv : DebouncedInvalidator)
    (ctx : NuxtMultiCacheSSRContext) (h : inv.cacheContext = some ctx) :
    inv.invalidate.tags = [] ∧ inv.invalidate.timeout = none ∧
    inv.invalidate.cacheContext = some (sweepContext (dedupedTags inv.tags) ctx) := by
  rw [invalidate_of_context_some inv ctx h]
  exact ⟨rfl, rfl, rfl⟩

/-- C6 amended witness. -/
theorem expiry_with_context_clears_window_witness :
    (DebouncedInvalidator.invalidate ⟨["t1"], some 2000, some 7, some []⟩).tags = [] :=
  (expiry_with_context_clears_window ⟨["t1"], some 2000, some 7, some []⟩ [] rfl).1

/-- C7: when the invalidation context has not been established, the sweep
returns silently: the invalidator state (and hence every backend) is left
exactly as it was, and no error is raised. -/
theorem uninitialized_context_sweep_noop (inv : DebouncedInvalidator)
    (h : inv.cacheContext = none) : inv.invalidate = inv :=
  invalidate_of_context_none inv h

/-- C7 witness. -/
theorem uninitialized_context_sweep_noop_witness :
    DebouncedInvalidator.invalidate ⟨["t1"], some 2000, some 7, none⟩
      = ⟨["t1"], some 2000, some 7, none⟩ :=
  uninitialized_context_sweep_noop ⟨["t1"], some 2000, some 7, none⟩ rfl

/-- C8: starting from a drained (empty) buffer, after any burst of `add`
calls the drained tag list passed to the sweep is duplicate-free and
contains a tag exactly when some call of the burst added it; and a sweep
with an established context resets the buffer to empty, so no tag is
carried into (or double-processed by) a later sweep. -/
theorem drained_tags_exactly_distinct_added (calls : List (List String × Nat))
    (inv : DebouncedInvalidator) (h0 : inv.tags = []) :
    (dedupedTags (applyCalls inv calls).tags).Nodup ∧
    (∀ a, a ∈ dedupedTags (applyCalls inv calls).tags ↔ ∃ c ∈ calls, a ∈ c.1) ∧
    (∀ ctx, (applyCalls inv calls).cacheContext = some ctx →
      ((applyCalls inv calls).invalidate).tags = []) := by
  have htags : (applyCalls inv calls).tags
      = calls.foldl (fun b c => addToBuffer b c.1) [] := by
    rw [applyCalls_tags_eq, h0]
  have hnd : (applyCalls inv calls).tags.Nodup := by
    rw [htags]
    exact nodup_foldl_addToBuffer calls [] List.nodup_nil
  have hded : dedupedTags (applyCalls inv calls).tags = (applyCalls inv calls).tags :=
    dedupedTags_of_nodup hnd
  refine ⟨by rw [hded]; exact hnd, ?_, ?_⟩
  · intro a
    rw [hded, htags, mem_foldl_addToBuffer]
    simp
  · intro ctx hctx
    rw [invalidate_of_context_some _ ctx hctx]

/-- C8 witness: a burst with overlapping tags drains to a duplicate-free
list. -/
theorem drained_tags_exactly_distinct_added_witness :
    (dedupedTags (applyCalls ⟨[], none, none, none⟩
      [(["t1", "t2"], 0), (["t2"], 10)]).tags).Nodup :=
  (drained_tags_exactly_distinct_added [(["t1", "t2"], 0), (["t2"], 10)]
    ⟨[], none, none, none⟩ rfl).1

/-- C9: sweeping a (duplicate-free) backend twice with the same tag set
deletes nothing on the second run: the backend state after the second
sweep equals the state after the first. -/
theorem sweep_idempotent (tags : List String) (b : Backend)
    (hk : (b.items.map Prod.fst).Nodup) :
    sweepBackend tags (sweepBackend tags b) = sweepBackend tags b := by
  have hk2 : ((sweepBackend tags b).items.map Prod.fst).Nodup := by
    rw [sweepBackend_eq_filter tags b hk]
    exact List.Nodup.sublist (List.Sublist.map Prod.fst (List.filter_sublist b.items)) hk
  rw [sweepBackend_eq_filter tags (sweepBackend tags b) hk2,
    sweepBackend_eq_filter tags b hk]
  congr 1
  show (b.items.filter (fun p => !purgeItem tags p.2)).filter (fun p => !purgeItem tags p.2)
      = b.items.filter (fun p => !purgeItem tags p.2)
  rw [List.filter_filter]
  apply List.filter_congr
  intro p _
  rw [Bool.and_self]

/-- C9 witness. -/
theorem sweep_idempotent_witness :
    sweepBackend ["t1"] (sweepBackend ["t1"]
      ⟨[("k1", CacheItem.obj (some ["t1"])), ("k2", CacheItem.primitive)]⟩)
      = sweepBackend ["t1"]
        ⟨[("k1", CacheItem.obj (some ["t1"])), ("k2", CacheItem.primitive)]⟩ :=
  sweep_idempotent ["t1"]
    ⟨[("k1", CacheItem.obj (some ["t1"])), ("k2", CacheItem.primitive)]⟩ (by decide)

/-- C10: when a timer fires while the cache context is unset, the expired
timeout handle is retained (it is only reset after the context check), so
every later `add` still sees a non-null timeout and never arms a new one:
the scheduled-fire-time field stays frozen at the stale value while the
added tags keep accumulating in the buffer. -/
theorem stale_timeout_blocks_rearm (inv : DebouncedInvalidator) (x : Nat)
    (hctx : inv.cacheContext = none) (ht : inv.timeout = some x)
    (calls : List (List String × Nat)) :
    inv.invalidate.timeout = some x ∧
    (applyCalls inv.invalidate calls).timeout = some x ∧
    (∀ a, a ∈ (applyCalls inv.invalidate calls).tags ↔
      a ∈ inv.tags ∨ ∃ c ∈ calls, a ∈ c.1) := by
  have hinv : inv.invalidate = inv := invalidate_of_context_none inv hctx
  rw [hinv]
  refine ⟨ht, applyCalls_timeout_of_some x calls inv ht, ?_⟩
  intro a
  rw [applyCalls_tags_eq, mem_foldl_addToBuffer]

/-- C10 witness: after a degraded fire, a later `add` does not re-arm. -/
theorem stale_timeout_blocks_rearm_witness :
    (applyCalls (DebouncedInvalidator.invalidate ⟨["t1"], some 2000, some 7, none⟩)
      [(["t2"], 50)]).timeout = some 7 :=
  (stale_timeout_blocks_rearm ⟨["t1"], some 2000, some 7, none⟩ 7 rfl rfl
    [(["t2"], 50)]).2.1
